import Mathlib

/-!
Verification of the crane Wordle evaluator.

Shallow embedding of `src/lib.rs` (mask computation `Correctness::compute`,
consistency filter `Guess::matches`, game loop `Wordle::play`) and of the
naive strategy `src/algorithms/naive.rs`.

Words (`&str` in Rust) are `List Char`.  The Rust functions assert that every
word has length 5; a violated assertion (a panic) is modelled by `none`
(for `compute` / `matches`) respectively by `PlayResult.aborted` in the game
loop.  The mutable arrays `c : [Correctness; 5]` and `used : [bool; 5]` are
modelled as functions `Nat → Correctness` / `Nat → Bool`; every loop of the
Rust code becomes a fuel-indexed recursion whose fuel is the (asserted)
length 5 of the arrays being iterated.
-/

inductive Correctness where
  | Correct
  | Misplaced
  | Wrong
  deriving DecidableEq, Repr

/-- Positional access to a word, as `word.chars().enumerate()` provides it.
The default is irrelevant: all loops below stay inside the asserted bounds. -/
def charAt (w : List Char) (i : Nat) : Char := w.getD i ' '

/-- Positional access to a mask (`[Correctness; 5]`). -/
def maskAt (m : List Correctness) (i : Nat) : Correctness := m.getD i Correctness.Wrong

/-- Pass 1 of `Correctness::compute`: mark letters green.
`c[i] = Correct` exactly when `answer[i] == guess[i]`, everything else `Wrong`. -/
def green0 (a g : List Char) : Nat → Correctness :=
  fun i => if charAt a i = charAt g i then Correctness.Correct else Correctness.Wrong

/-- The `used` array right after pass 1: `used[i] = (c[i] == Correct)`. -/
def used0 (a g : List Char) : Nat → Bool :=
  fun i => decide (green0 a g i = Correctness.Correct)

/-- The `answer.chars().enumerate().any(...)` scan inside pass 2 of
`Correctness::compute`: find the first answer position `p` (scanning from `p`
with `fuel` positions left) holding the guessed letter `x` and not yet used. -/
def findUnusedFrom (a : List Char) (x : Char) : Nat → Nat → (Nat → Bool) → Option Nat
  | 0, _, _ => none
  | fuel+1, p, used =>
    if charAt a p = x ∧ used p = false then some p
    else findUnusedFrom a x fuel (p+1) used

/-- Pass 2 of `Correctness::compute` (mark letters yellow), iterating guess
positions `i` upward, threading the mask `c` and the `used` array.  The inner
scan always walks the whole 5-letter answer, as `answer.chars()` does. -/
def yellowFrom (a g : List Char) : Nat → Nat → (Nat → Correctness) → (Nat → Bool) →
    ((Nat → Correctness) × (Nat → Bool))
  | 0, _, c, used => (c, used)
  | fuel+1, i, c, used =>
    if c i = Correctness.Correct then yellowFrom a g fuel (i+1) c used
    else
      match findUnusedFrom a (charAt g i) 5 0 used with
      | some p =>
          yellowFrom a g fuel (i+1)
            (fun k => if k = i then Correctness.Misplaced else c k)
            (fun k => if k = p then true else used k)
      | none => yellowFrom a g fuel (i+1) c used

/-- The mask `Correctness::compute` returns on 5-letter inputs, read back into
a five-entry list (the Rust `[Correctness; 5]`). -/
def maskOf (a g : List Char) : List Correctness :=
  (List.range 5).map (yellowFrom a g 5 0 (green0 a g) (used0 a g)).1

/-- `Correctness::compute(answer, guess)`.  `none` models the panic of the two
`assert_eq!(len, 5)` preconditions. -/
def Correctness.compute (a g : List Char) : Option (List Correctness) :=
  if a.length = 5 ∧ g.length = 5 then some (maskOf a g) else none

/-- `pub struct Guess { word: String, mask: [Correctness; 5] }`. -/
structure Guess where
  word : List Char
  mask : List Correctness

/-- `Guess::new` just packages the pair. -/
def Guess.new (word : List Char) (mask : List Correctness) : Guess := ⟨word, mask⟩

/-- First loop of `Guess::matches`: every position whose mask entry is
`Correct` must agree between guess word and candidate (`none` models the
`return false`), and such positions are marked used. -/
def greenFrom (gw : List Char) (mask : List Correctness) (cand : List Char) :
    Nat → Nat → (Nat → Bool) → Option (Nat → Bool)
  | 0, _, used => some used
  | fuel+1, i, used =>
    if maskAt mask i = Correctness.Correct then
      if charAt gw i = charAt cand i then
        greenFrom gw mask cand fuel (i+1) (fun k => if k = i then true else used k)
      else none
    else greenFrom gw mask cand fuel (i+1) used

/-- The `self.word.chars().zip(&self.mask).enumerate().any(...)` scan inside
the second loop of `Guess::matches`, looking for the candidate letter `w` of
candidate position `i` among the guess positions `j`.  The returned triple is
`(value of the any, final used array, final plausible flag)`.  The Rust
closure's `Correctness::Correct => unreachable!` arm is modelled as a skip:
it sits behind `used[j] == false`, and the first loop has already marked every
`Correct` position used, so the arm can never be entered by `matches`. -/
def scanFrom (gw : List Char) (mask : List Correctness) (w : Char) (i : Nat) :
    Nat → Nat → (Nat → Bool) → Bool → Bool × (Nat → Bool) × Bool
  | 0, _, used, pl => (false, used, pl)
  | fuel+1, j, used, pl =>
    if charAt gw j = w then
      if used j = true then scanFrom gw mask w i fuel (j+1) used pl
      else
        match maskAt mask j with
        | Correctness.Correct => scanFrom gw mask w i fuel (j+1) used pl
        | Correctness.Misplaced =>
            if j = i then scanFrom gw mask w i fuel (j+1) used false
            else (true, fun k => if k = j then true else used k, pl)
        | Correctness.Wrong => scanFrom gw mask w i fuel (j+1) used false
    else scanFrom gw mask w i fuel (j+1) used pl

/-- Second loop of `Guess::matches` over candidate positions `i`: skip
`Correct` positions, otherwise run the scan; `!plausible` forces `false`,
a successful scan consumes a guess position, and an empty scan gives no
information. -/
def matchFrom (gw : List Char) (mask : List Correctness) (cand : List Char) :
    Nat → Nat → (Nat → Bool) → Bool
  | 0, _, _ => true
  | fuel+1, i, used =>
    if maskAt mask i = Correctness.Correct then matchFrom gw mask cand fuel (i+1) used
    else
      match scanFrom gw mask (charAt cand i) i 5 0 used true with
      | (found, used2, pl) =>
        if found = true ∧ pl = true then matchFrom gw mask cand fuel (i+1) used2
        else if pl = false then false
        else matchFrom gw mask cand fuel (i+1) used2

/-- `Guess::matches(&self, word)`.  `none` models the panic of the two
`assert_eq!(len, 5)` preconditions; the Rust `dbg!(used)` only prints. -/
def Guess.matches (g : Guess) (cand : List Char) : Option Bool :=
  if g.word.length = 5 ∧ cand.length = 5 then
    match greenFrom g.word g.mask cand 5 0 (fun _ => false) with
    | none => some false
    | some u => some (matchFrom g.word g.mask cand 5 0 u)
  else none

/-- Outcome of `Wordle::play`: `win i` is `Some(i)`, `exhausted` is `None`,
and `aborted` models a panicking `assert!` (invalid guess or bad word length). -/
inductive PlayResult where
  | win (turn : Nat)
  | exhausted
  | aborted
  deriving DecidableEq, Repr

/-- The turn loop of `Wordle::play`, with `fuel` turns remaining and `i` the
1-based number of the current turn.  The dictionary membership `assert!` is
checked before the win test, exactly as in the source. -/
def playAux (dict : List (List Char)) (answer : List Char)
    (guesser : List Guess → List Char) : Nat → Nat → List Guess → PlayResult
  | 0, _, _ => PlayResult.exhausted
  | fuel+1, i, history =>
    let guess := guesser history
    if guess ∈ dict then
      if guess = answer then PlayResult.win i
      else
        match Correctness.compute answer guess with
        | some m => playAux dict answer guesser fuel (i+1) (history ++ [Guess.new guess m])
        | none => PlayResult.aborted
    else PlayResult.aborted

/-- `Wordle::play(answer, guesser)`: `for i in 1..=32` over the turn loop.
The dictionary, an external resource (`dictionary.txt`), is a parameter. -/
def Wordle.play (dict : List (List Char)) (answer : List Char)
    (guesser : List Guess → List Char) : PlayResult :=
  playAux dict answer guesser 32 1 []

/-- The history reached by `Wordle::play` after `k` losing turns: each turn
appends the strategy's guess together with the mask `compute` produced for it.
(The `getD` default is never taken when answer and guesses have length 5.) -/
def histAt (answer : List Char) (guesser : List Guess → List Char) : Nat → List Guess
  | 0 => []
  | k+1 =>
      histAt answer guesser k ++
        [Guess.new (guesser (histAt answer guesser k))
          ((Correctness.compute answer (guesser (histAt answer guesser k))).getD
            (List.replicate 5 Correctness.Wrong))]

/-- `struct Candidate` of the naive strategy.  Its `goodness: f64` is the
constant `0.0` everywhere in the source, modelled as the constant `0`. -/
structure Candidate where
  word : List Char
  count : Nat
  goodness : Nat

/-- The selection loop of `Naive::guess`: the `goodness > c.goodness`
comparison is `0.0 > 0.0` (always false) and even its true branch re-assigns
the old best, so `best` ends up being the first candidate seen. -/
def selectLoop : List (List Char × Nat) → Option Candidate → Option Candidate
  | [], best => best
  | (w, cnt) :: rest, best =>
    match best with
    | some c => selectLoop rest (if 0 > c.goodness then some c else some c)
    | none => selectLoop rest (some ⟨w, cnt, 0⟩)

/-- `Naive::guess`: retain the candidates matching the last history entry,
then run the selection loop; `none` models the panic of `best.unwrap()`.
(On 5-letter dictionary words `matches` never returns `none`, so reading a
`none` as a failed filter is only a formality of the embedding.) -/
def Naive.guess (remaining : List (List Char × Nat)) (history : List Guess) :
    Option (List Char) :=
  let rem :=
    match history.getLast? with
    | some last => remaining.filter (fun wc => (Guess.matches last wc.1).getD false)
    | none => remaining
  Option.map Candidate.word (selectLoop rem none)

/-! ## Basic facts about `compute` and the game loop -/

/-- On 5-letter inputs `compute` always succeeds, returning `maskOf`. -/
theorem compute_eq_some (a g : List Char) (ha : a.length = 5) (hg : g.length = 5) :
    Correctness.compute a g = some (maskOf a g) := by
  simp [Correctness.compute, ha, hg]

/-- Unfolding one winning turn of the loop: a dictionary guess equal to the
answer wins with the current 1-based turn number. -/
theorem playAux_win_now (dict : List (List Char)) (answer : List Char)
    (guesser : List Guess → List Char) (n i : Nat) (hist : List Guess)
    (hmem : guesser hist ∈ dict) (heq : guesser hist = answer) :
    playAux dict answer guesser (n+1) i hist = PlayResult.win i := by
  have h2 : answer ∈ dict := heq ▸ hmem
  simp [playAux, hmem, heq, h2]

/-- Unfolding one losing turn of the loop: a dictionary guess different from
the answer is scored with `compute` and appended to the history. -/
theorem playAux_step (dict : List (List Char)) (answer : List Char)
    (guesser : List Guess → List Char) (n i : Nat) (hist : List Guess)
    (m : List Correctness) (hmem : guesser hist ∈ dict) (hne : guesser hist ≠ answer)
    (hm : Correctness.compute answer (guesser hist) = some m) :
    playAux dict answer guesser (n+1) i hist =
      playAux dict answer guesser n (i+1) (hist ++ [Guess.new (guesser hist) m]) := by
  simp [playAux, hmem, hne, hm]

/-! ## C5: the six literal matcher cases -/

/-- C5: the six literal matcher cases of the test suite hold:
`abcde+[CCCCC]` allows `abcde`; `abcdf+[CCCCC]` disallows `abcde`;
`abcde+[WWWWW]` allows `mnopq`; `abcde+[MMMMM]` allows `eabcd`;
`baaaa+[WCMWW]` allows `aaccc` and disallows `caacc`. -/
theorem matches_literal_cases :
    Guess.matches ⟨['a','b','c','d','e'],
      [Correctness.Correct, Correctness.Correct, Correctness.Correct,
        Correctness.Correct, Correctness.Correct]⟩ ['a','b','c','d','e'] = some true
    ∧ Guess.matches ⟨['a','b','c','d','f'],
      [Correctness.Correct, Correctness.Correct, Correctness.Correct,
        Correctness.Correct, Correctness.Correct]⟩ ['a','b','c','d','e'] = some false
    ∧ Guess.matches ⟨['a','b','c','d','e'],
      [Correctness.Wrong, Correctness.Wrong, Correctness.Wrong,
        Correctness.Wrong, Correctness.Wrong]⟩ ['m','n','o','p','q'] = some true
    ∧ Guess.matches ⟨['a','b','c','d','e'],
      [Correctness.Misplaced, Correctness.Misplaced, Correctness.Misplaced,
        Correctness.Misplaced, Correctness.Misplaced]⟩ ['e','a','b','c','d'] = some true
    ∧ Guess.matches ⟨['b','a','a','a','a'],
      [Correctness.Wrong, Correctness.Correct, Correctness.Misplaced,
        Correctness.Wrong, Correctness.Wrong]⟩ ['a','a','c','c','c'] = some true
    ∧ Guess.matches ⟨['b','a','a','a','a'],
      [Correctness.Wrong, Correctness.Correct, Correctness.Misplaced,
        Correctness.Wrong, Correctness.Wrong]⟩ ['c','a','a','c','c'] = some false := by
  decide

/-! ## C6: the six literal mask cases -/

/-- C6: the six literal `compute` cases of the test suite hold:
`compute(abcde,abcde)=[CCCCC]`, `compute(abcde,fghij)=[WWWWW]`,
`compute(abcde,baecd)=[MMMMM]`, `compute(aabbb,aaccc)=[CCWWW]`,
`compute(aabbb,ccaac)=[WWMMW]`, `compute(azzaz,aaabb)=[CMWWW]`. -/
theorem compute_literal_cases :
    Correctness.compute ['a','b','c','d','e'] ['a','b','c','d','e'] =
      some [Correctness.Correct, Correctness.Correct, Correctness.Correct,
        Correctness.Correct, Correctness.Correct]
    ∧ Correctness.compute ['a','b','c','d','e'] ['f','g','h','i','j'] =
      some [Correctness.Wrong, Correctness.Wrong, Correctness.Wrong,
        Correctness.Wrong, Correctness.Wrong]
    ∧ Correctness.compute ['a','b','c','d','e'] ['b','a','e','c','d'] =
      some [Correctness.Misplaced, Correctness.Misplaced, Correctness.Misplaced,
        Correctness.Misplaced, Correctness.Misplaced]
    ∧ Correctness.compute ['a','a','b','b','b'] ['a','a','c','c','c'] =
      some [Correctness.Correct, Correctness.Correct, Correctness.Wrong,
        Correctness.Wrong, Correctness.Wrong]
    ∧ Correctness.compute ['a','a','b','b','b'] ['c','c','a','a','c'] =
      some [Correctness.Wrong, Correctness.Wrong, Correctness.Misplaced,
        Correctness.Misplaced, Correctness.Wrong]
    ∧ Correctness.compute ['a','z','z','a','z'] ['a','a','a','b','b'] =
      some [Correctness.Correct, Correctness.Misplaced, Correctness.Wrong,
        Correctness.Wrong, Correctness.Wrong] := by
  decide

/-! ## C8: the 5-letter length preconditions are fatal -/

/-- C8: `compute` and `matches` fail fatally (modelled by `none`) exactly when
an input word does not have length 5; on 5-letter inputs they always return a
value, so the failure is a precondition violation, not a game-state outcome. -/
theorem compute_matches_length_assert :
    (∀ a g : List Char, Correctness.compute a g = none ↔ ¬(a.length = 5 ∧ g.length = 5))
    ∧ (∀ (gs : Guess) (cand : List Char),
        Guess.matches gs cand = none ↔ ¬(gs.word.length = 5 ∧ cand.length = 5)) := by
  constructor
  · intro a g
    unfold Correctness.compute
    split
    case isTrue h => simp [h]
    case isFalse h => simp [h]
  · intro gs cand
    unfold Guess.matches
    split
    case isTrue h =>
      cases hg : greenFrom gs.word gs.mask cand 5 0 (fun _ => false) <;> simp [h]
    case isFalse h => simp [h]

/-- Witness for C8 at concrete inputs: a 3-letter answer makes `compute`
panic, and a 3-letter candidate makes `matches` panic. -/
theorem compute_matches_length_assert_witness :
    Correctness.compute ['a','b','c'] ['a','b','c','d','e'] = none
    ∧ Guess.matches ⟨['a','b','c','d','e'], []⟩ ['a','b','c'] = none := by
  refine ⟨(compute_matches_length_assert.1 _ _).2 (by decide),
    (compute_matches_length_assert.2 _ _).2 (by decide)⟩

/-! ## C7: the dictionary check precedes everything and is fatal -/

/-- C7: on every turn, the guess is checked against the dictionary before any
other processing, and an out-of-dictionary guess aborts the game fatally:
`playAux` aborts from any reachable state, and `play` aborts whenever the
first guess is invalid — even when that guess equals the answer. -/
theorem play_validates_guess :
    (∀ (dict : List (List Char)) (answer : List Char)
        (guesser : List Guess → List Char) (n i : Nat) (hist : List Guess),
        guesser hist ∉ dict →
        playAux dict answer guesser (n+1) i hist = PlayResult.aborted)
    ∧ (∀ (dict : List (List Char)) (answer : List Char)
        (guesser : List Guess → List Char),
        guesser [] ∉ dict →
        Wordle.play dict answer guesser = PlayResult.aborted) := by
  constructor
  · intro dict answer guesser n i hist h
    simp [playAux, h]
  · intro dict answer guesser h
    simp [Wordle.play, playAux, h]

/-- Witness for C7: against the empty dictionary the loop aborts immediately,
even though the strategy's first guess equals the answer. -/
theorem play_validates_guess_witness :
    Wordle.play [] ['r','i','g','h','t'] (fun _ => ['r','i','g','h','t']) =
      PlayResult.aborted :=
  play_validates_guess.2 _ _ _ (by simp)

/-! ## C10: the naive strategy panics on an empty candidate set -/

/-- After the first candidate, `best` never changes (the goodness comparison
is the constant `0.0 > 0.0`, and even its true branch keeps the old best). -/
theorem selectLoop_some (l : List (List Char × Nat)) (c : Candidate) :
    selectLoop l (some c) = some c := by
  induction l with
  | nil => rfl
  | cons wc rest ih =>
    obtain ⟨w, cnt⟩ := wc
    simpa [selectLoop] using ih

/-- C10: with a nonempty history, `Naive::guess` panics on `best.unwrap()`
(modelled by `none`) exactly when no remaining word passes the consistency
filter against the most recent guess — the unstated precondition that at
least one candidate survives the filter. -/
theorem naive_guess_empty_panics (remaining : List (List Char × Nat))
    (history : List Guess) (last : Guess) (h : history.getLast? = some last) :
    Naive.guess remaining history = none ↔
      remaining.filter (fun wc => (Guess.matches last wc.1).getD false) = [] := by
  unfold Naive.guess
  rw [h]
  dsimp only
  cases hf : remaining.filter (fun wc => (Guess.matches last wc.1).getD false) with
  | nil => simp [selectLoop]
  | cons wc rest =>
    obtain ⟨w, cnt⟩ := wc
    simp [selectLoop, selectLoop_some]

/-- Witness for C10: the single dictionary word `wrong` is rejected by the
all-gray guess `wrong`, so the strategy panics. -/
theorem naive_guess_empty_panics_witness :
    Naive.guess [(['w','r','o','n','g'], 1)]
      [Guess.new ['w','r','o','n','g']
        [Correctness.Wrong, Correctness.Wrong, Correctness.Wrong,
          Correctness.Wrong, Correctness.Wrong]] = none :=
  (naive_guess_empty_panics [(['w','r','o','n','g'], 1)]
    [Guess.new ['w','r','o','n','g']
      [Correctness.Wrong, Correctness.Wrong, Correctness.Wrong,
        Correctness.Wrong, Correctness.Wrong]]
    (Guess.new ['w','r','o','n','g']
      [Correctness.Wrong, Correctness.Wrong, Correctness.Wrong,
        Correctness.Wrong, Correctness.Wrong]) rfl).2 (by decide)


/-! ## C9: the history grows by exactly one entry per losing turn -/

/-- C9: each losing turn appends exactly one `Guess` — whose mask is the one
`compute` produced at creation — to the history, so after `k` completed
losing turns the history holds exactly `k` entries. -/
theorem history_append_per_turn :
    (∀ (dict : List (List Char)) (answer : List Char)
        (guesser : List Guess → List Char) (n i : Nat) (hist : List Guess)
        (m : List Correctness),
        guesser hist ∈ dict → guesser hist ≠ answer →
        Correctness.compute answer (guesser hist) = some m →
        playAux dict answer guesser (n+1) i hist =
          playAux dict answer guesser n (i+1) (hist ++ [Guess.new (guesser hist) m]) ∧
        (hist ++ [Guess.new (guesser hist) m]).length = hist.length + 1)
    ∧ (∀ (answer : List Char) (guesser : List Guess → List Char) (k : Nat),
        (histAt answer guesser k).length = k) := by
  constructor
  · intro dict answer guesser n i hist m hmem hne hm
    exact ⟨playAux_step dict answer guesser n i hist m hmem hne hm, by simp⟩
  · intro answer guesser k
    induction k with
    | zero => rfl
    | succ k ih => simp [histAt, ih]

/-- Witness for C9 at concrete inputs: one turn of guessing `wrong` against
`right` appends exactly the guess scored with its computed mask. -/
theorem history_append_per_turn_witness :
    (playAux [['w','r','o','n','g']] ['r','i','g','h','t'] (fun _ => ['w','r','o','n','g']) 2 1 [] =
      playAux [['w','r','o','n','g']] ['r','i','g','h','t'] (fun _ => ['w','r','o','n','g']) 1 2
        [Guess.new ['w','r','o','n','g']
          [Correctness.Wrong, Correctness.Misplaced, Correctness.Wrong,
            Correctness.Wrong, Correctness.Misplaced]] ∧
      (([] : List Guess) ++ [Guess.new ['w','r','o','n','g']
          [Correctness.Wrong, Correctness.Misplaced, Correctness.Wrong,
            Correctness.Wrong, Correctness.Misplaced]]).length =
        ([] : List Guess).length + 1) ∧
    (histAt ['r','i','g','h','t'] (fun _ => ['w','r','o','n','g']) 3).length = 3 :=
  ⟨history_append_per_turn.1 _ _ _ 1 1 [] _ (by decide) (by decide) (by decide),
    history_append_per_turn.2 _ _ 3⟩

/-! ## C4: `play` wins on the first matching turn, else exhausts 32 turns -/

/-- From any reached state, if the `j`-th future guess (0-based) is the first
one equal to the answer, the loop wins with the corresponding turn number. -/
theorem playAux_first_win (dict : List (List Char)) (answer : List Char)
    (guesser : List Guess → List Char)
    (hmem : ∀ h : List Guess, guesser h ∈ dict) (ha : answer.length = 5)
    (hglen : ∀ h : List Guess, (guesser h).length = 5) :
    ∀ (j n k : Nat), j < n →
      guesser (histAt answer guesser (k+j)) = answer →
      (∀ l, l < j → guesser (histAt answer guesser (k+l)) ≠ answer) →
      playAux dict answer guesser n (k+1) (histAt answer guesser k) =
        PlayResult.win (k+j+1) := by
  intro j
  induction j with
  | zero =>
    intro n k hn heq _
    obtain ⟨n', rfl⟩ : ∃ n', n = n'+1 := ⟨n-1, (Nat.succ_pred_eq_of_pos hn).symm⟩
    exact playAux_win_now dict answer guesser n' (k+1) _ (hmem _) heq
  | succ j' ih =>
    intro n k hn heq hbefore
    obtain ⟨n', rfl⟩ : ∃ n', n = n'+1 := ⟨n-1, (Nat.succ_pred_eq_of_pos (by omega)).symm⟩
    have hne : guesser (histAt answer guesser k) ≠ answer := by
      have := hbefore 0 (by omega)
      simpa using this
    have hc := compute_eq_some answer (guesser (histAt answer guesser k)) ha (hglen _)
    rw [playAux_step dict answer guesser n' (k+1) _ _ (hmem _) hne hc]
    have hh : histAt answer guesser k ++
        [Guess.new (guesser (histAt answer guesser k)) (maskOf answer (guesser (histAt answer guesser k)))] =
        histAt answer guesser (k+1) := by
      simp [histAt, hc]
    rw [hh]
    have heq' : guesser (histAt answer guesser ((k+1)+j')) = answer := by
      rwa [show (k+1)+j' = k+(j'+1) by omega]
    have hbefore' : ∀ l, l < j' → guesser (histAt answer guesser ((k+1)+l)) ≠ answer := by
      intro l hl
      rw [show (k+1)+l = k+(l+1) by omega]
      exact hbefore (l+1) (by omega)
    have := ih n' (k+1) (by omega) heq' hbefore'
    rwa [show (k+1)+j'+1 = k+(j'+1)+1 by omega] at this

/-- From any reached state, if no future guess within the remaining budget
equals the answer, the loop terminates exhausted. -/
theorem playAux_exhaust (dict : List (List Char)) (answer : List Char)
    (guesser : List Guess → List Char)
    (hmem : ∀ h : List Guess, guesser h ∈ dict) (ha : answer.length = 5)
    (hglen : ∀ h : List Guess, (guesser h).length = 5) :
    ∀ (n k : Nat),
      (∀ l, l < n → guesser (histAt answer guesser (k+l)) ≠ answer) →
      playAux dict answer guesser n (k+1) (histAt answer guesser k) =
        PlayResult.exhausted := by
  intro n
  induction n with
  | zero => intro k _; rfl
  | succ n' ih =>
    intro k hall
    have hne : guesser (histAt answer guesser k) ≠ answer := by
      have := hall 0 (by omega)
      simpa using this
    have hc := compute_eq_some answer (guesser (histAt answer guesser k)) ha (hglen _)
    rw [playAux_step dict answer guesser n' (k+1) _ _ (hmem _) hne hc]
    have hh : histAt answer guesser k ++
        [Guess.new (guesser (histAt answer guesser k)) (maskOf answer (guesser (histAt answer guesser k)))] =
        histAt answer guesser (k+1) := by
      simp [histAt, hc]
    rw [hh]
    exact ih (k+1) (fun l hl => by
      rw [show (k+1)+l = k+(l+1) by omega]
      exact hall (l+1) (by omega))

/-- C4: under the strategy contract (every guess is a 5-letter dictionary
word), `play` returns `win i` precisely when the `i`-th turn (1-based,
`1 ≤ i ≤ 32`) is the first whose guess equals the answer, and returns
`exhausted` when all 32 turns miss. -/
theorem play_win_iff_first_match (dict : List (List Char)) (answer : List Char)
    (guesser : List Guess → List Char)
    (hmem : ∀ h : List Guess, guesser h ∈ dict) (ha : answer.length = 5)
    (hglen : ∀ h : List Guess, (guesser h).length = 5) :
    (∀ i : Nat, 1 ≤ i → i ≤ 32 →
      guesser (histAt answer guesser (i-1)) = answer →
      (∀ k, k < i-1 → guesser (histAt answer guesser k) ≠ answer) →
      Wordle.play dict answer guesser = PlayResult.win i)
    ∧ ((∀ k, k < 32 → guesser (histAt answer guesser k) ≠ answer) →
      Wordle.play dict answer guesser = PlayResult.exhausted) := by
  constructor
  · intro i h1 h32 heq hbef
    have := playAux_first_win dict answer guesser hmem ha hglen (i-1) 32 0
      (by omega) (by simpa using heq) (fun l hl => by simpa using hbef l hl)
    have h0 : 0+(i-1)+1 = i := by omega
    rw [h0] at this
    exact this
  · intro hall
    exact playAux_exhaust dict answer guesser hmem ha hglen 32 0
      (fun l hl => by simpa using hall l hl)

/-- Witness for C4: over a two-word dictionary, the constant `right` strategy
wins against `right` on turn 1, and the constant `wrong` strategy exhausts
all 32 turns. -/
theorem play_win_iff_first_match_witness :
    Wordle.play [['r','i','g','h','t'], ['w','r','o','n','g']] ['r','i','g','h','t']
      (fun _ => ['r','i','g','h','t']) = PlayResult.win 1
    ∧ Wordle.play [['r','i','g','h','t'], ['w','r','o','n','g']] ['r','i','g','h','t']
      (fun _ => ['w','r','o','n','g']) = PlayResult.exhausted := by
  constructor
  · exact (play_win_iff_first_match _ _ _ (fun _ => by simp) (by decide)
      (fun _ => by decide)).1 1 (by omega) (by omega) (by decide)
      (fun k hk => by omega)
  · exact (play_win_iff_first_match _ _ _ (fun _ => by simp) (by decide)
      (fun _ => by decide)).2 (fun k _ => by decide)

/-! ## A rank toolkit for left-to-right consumption arguments

Both the yellow pass of `compute` and the scan of `matches` consume, per
letter, the leftmost not-yet-used position.  `rnk S j` is the 1-based rank of
`j` inside the position set `S` (the number of elements of `S` that are
`≤ j`); leftmost-first consumption consumes ranks `1, 2, …` in order. -/

/-- The 1-based rank of `j` in the position set `S`. -/
def rnk (S : Finset ℕ) (j : ℕ) : ℕ := (S.filter (fun k => k ≤ j)).card

theorem rnk_mono (S : Finset ℕ) {j j' : ℕ} (h : j ≤ j') : rnk S j ≤ rnk S j' :=
  Finset.card_le_card (Finset.monotone_filter_right S (fun _ hk => le_trans hk h))

theorem rnk_pos_of_mem {S : Finset ℕ} {j : ℕ} (hj : j ∈ S) : 1 ≤ rnk S j :=
  Finset.card_pos.2 ⟨j, Finset.mem_filter.2 ⟨hj, le_refl j⟩⟩

theorem rnk_le_card (S : Finset ℕ) (j : ℕ) : rnk S j ≤ S.card :=
  Finset.card_le_card (Finset.filter_subset _ S)

theorem rnk_lt_of_mem_lt {S : Finset ℕ} {j j' : ℕ} (hj' : j' ∈ S) (h : j < j') :
    rnk S j < rnk S j' := by
  apply Finset.card_lt_card
  rw [Finset.ssubset_iff_of_subset
    (Finset.monotone_filter_right S (fun _ hk => le_trans hk (le_of_lt h)))]
  exact ⟨j', Finset.mem_filter.2 ⟨hj', le_refl j'⟩,
    fun hmem => absurd (Finset.mem_filter.1 hmem).2 (by omega)⟩

theorem rnk_eq_card_lt_add_one {S : Finset ℕ} {j : ℕ} (hj : j ∈ S) :
    rnk S j = (S.filter (fun k => k < j)).card + 1 := by
  have hins : S.filter (fun k => k ≤ j) = insert j (S.filter (fun k => k < j)) := by
    ext k
    simp only [Finset.mem_filter, Finset.mem_insert]
    constructor
    · rintro ⟨hk, hle⟩
      rcases Nat.lt_or_ge k j with hlt | hge
      · exact Or.inr ⟨hk, hlt⟩
      · exact Or.inl (by omega)
    · rintro (rfl | ⟨hk, hlt⟩)
      · exact ⟨hj, le_refl k⟩
      · exact ⟨hk, by omega⟩
  rw [rnk, hins, Finset.card_insert_of_not_mem (by simp)]

theorem rnk_injOn (S : Finset ℕ) :
    ∀ j ∈ S, ∀ j' ∈ S, rnk S j = rnk S j' → j = j' := by
  intro j hj j' hj' heq
  rcases Nat.lt_trichotomy j j' with h | h | h
  · exact absurd heq (Nat.ne_of_lt (rnk_lt_of_mem_lt hj' h))
  · exact h
  · exact absurd heq.symm (Nat.ne_of_lt (rnk_lt_of_mem_lt hj h))

theorem exists_rnk (S : Finset ℕ) (k : ℕ) (h1 : 1 ≤ k) (h2 : k ≤ S.card) :
    ∃ j ∈ S, rnk S j = k := by
  have himg : S.image (fun j => rnk S j) = Finset.Icc 1 S.card := by
    apply Finset.eq_of_subset_of_card_le
    · intro m hm
      obtain ⟨j, hj, rfl⟩ := Finset.mem_image.1 hm
      exact Finset.mem_Icc.2 ⟨rnk_pos_of_mem hj, rnk_le_card S j⟩
    · rw [Nat.card_Icc, Finset.card_image_of_injOn (fun j hj j' hj' h => rnk_injOn S j hj j' hj' h)]
      omega
  have : k ∈ S.image (fun j => rnk S j) := by
    rw [himg]; exact Finset.mem_Icc.2 ⟨h1, h2⟩
  obtain ⟨j, hj, hjk⟩ := Finset.mem_image.1 this
  exact ⟨j, hj, hjk⟩

theorem card_rnk_le (S : Finset ℕ) (m : ℕ) :
    (S.filter (fun j => rnk S j ≤ m)).card ≤ m := by
  have := Finset.card_le_card_of_injOn (fun j => rnk S j)
    (s := S.filter (fun j => rnk S j ≤ m)) (t := Finset.Icc 1 m)
    (fun j hj => by
      obtain ⟨hjS, hjm⟩ := Finset.mem_filter.1 hj
      exact Finset.mem_Icc.2 ⟨rnk_pos_of_mem hjS, hjm⟩)
    (fun j hj j' hj' h =>
      rnk_injOn S j (Finset.mem_filter.1 hj).1 j' (Finset.mem_filter.1 hj').1 h)
  simpa [Nat.card_Icc] using this

/-! ## Characterization of the inner scans -/

theorem findUnusedFrom_some (a : List Char) (x : Char) :
    ∀ (fuel p0 : Nat) (used : Nat → Bool) (p : Nat),
      findUnusedFrom a x fuel p0 used = some p →
      p0 ≤ p ∧ p < p0 + fuel ∧ charAt a p = x ∧ used p = false := by
  intro fuel
  induction fuel with
  | zero => intro p0 used p h; exact absurd h (by simp [findUnusedFrom])
  | succ f ih =>
    intro p0 used p h
    rw [findUnusedFrom] at h
    split at h
    case isTrue hc =>
      obtain rfl : p0 = p := by injection h
      exact ⟨le_refl _, by omega, hc.1, hc.2⟩
    case isFalse hc =>
      obtain ⟨h1, h2, h3, h4⟩ := ih (p0+1) used p h
      exact ⟨by omega, by omega, h3, h4⟩

theorem findUnusedFrom_none (a : List Char) (x : Char) :
    ∀ (fuel p0 : Nat) (used : Nat → Bool),
      findUnusedFrom a x fuel p0 used = none →
      ∀ p, p0 ≤ p → p < p0 + fuel → ¬(charAt a p = x ∧ used p = false) := by
  intro fuel
  induction fuel with
  | zero => intro p0 used _ p h1 h2; omega
  | succ f ih =>
    intro p0 used h p h1 h2
    rw [findUnusedFrom] at h
    split at h
    case isTrue hc => exact absurd h (by simp)
    case isFalse hc =>
      rcases Nat.eq_or_lt_of_le h1 with rfl | hlt
      · exact hc
      · exact ih (p0+1) used h p (by omega) (by omega)

theorem scanFrom_no_elig (gw : List Char) (mask : List Correctness) (w : Char) (i : Nat) :
    ∀ (fuel j0 : Nat) (used : Nat → Bool) (pl : Bool),
      (∀ j, j0 ≤ j → j < j0 + fuel → ¬(charAt gw j = w ∧ used j = false)) →
      scanFrom gw mask w i fuel j0 used pl = (false, used, pl) := by
  intro fuel
  induction fuel with
  | zero => intro j0 used pl _; rfl
  | succ f ih =>
    intro j0 used pl h
    rw [scanFrom]
    by_cases hg : charAt gw j0 = w
    · have hu : used j0 = true := by
        by_contra hu
        exact h j0 (le_refl _) (by omega) ⟨hg, by simpa using hu⟩
      rw [if_pos hg, if_pos hu]
      exact ih (j0+1) used pl (fun j h1 h2 => h j (by omega) (by omega))
    · rw [if_neg hg]
      exact ih (j0+1) used pl (fun j h1 h2 => h j (by omega) (by omega))

theorem scanFrom_found (gw : List Char) (mask : List Correctness) (w : Char) (i : Nat) :
    ∀ (fuel j0 : Nat) (used : Nat → Bool) (pl : Bool) (jst : Nat),
      j0 ≤ jst → jst < j0 + fuel →
      charAt gw jst = w → used jst = false →
      maskAt mask jst = Correctness.Misplaced → jst ≠ i →
      (∀ j, j0 ≤ j → j < jst → ¬(charAt gw j = w ∧ used j = false)) →
      scanFrom gw mask w i fuel j0 used pl =
        (true, fun k => if k = jst then true else used k, pl) := by
  intro fuel
  induction fuel with
  | zero => intro j0 used pl jst h1 h2 _ _ _ _ _; omega
  | succ f ih =>
    intro j0 used pl jst h1 h2 hg hu hm hne hfirst
    rw [scanFrom]
    rcases Nat.eq_or_lt_of_le h1 with rfl | hlt
    · rw [if_pos hg, if_neg (by simpa using hu), hm, if_neg hne]
    · have hskip : ¬(charAt gw j0 = w ∧ used j0 = false) :=
        hfirst j0 (le_refl _) hlt
      by_cases hg0 : charAt gw j0 = w
      · have hu0 : used j0 = true := by
          by_contra hu0
          exact hskip ⟨hg0, by simpa using hu0⟩
        rw [if_pos hg0, if_pos hu0]
        exact ih (j0+1) used pl jst (by omega) (by omega) hg hu hm hne
          (fun j ha hb => hfirst j (by omega) hb)
      · rw [if_neg hg0]
        exact ih (j0+1) used pl jst (by omega) (by omega) hg hu hm hne
          (fun j ha hb => hfirst j (by omega) hb)

theorem scanFrom_pl_false (gw : List Char) (mask : List Correctness) (w : Char) (i : Nat) :
    ∀ (fuel j0 : Nat) (used : Nat → Bool),
      (scanFrom gw mask w i fuel j0 used false).2.2 = false := by
  intro fuel
  induction fuel with
  | zero => intro j0 used; rfl
  | succ f ih =>
    intro j0 used
    rw [scanFrom]
    by_cases hg : charAt gw j0 = w
    · rw [if_pos hg]
      by_cases hu : used j0 = true
      · rw [if_pos hu]; exact ih (j0+1) used
      · rw [if_neg hu]
        cases hm : maskAt mask j0 with
        | Correct => exact ih (j0+1) used
        | Misplaced =>
          by_cases hji : j0 = i
          · rw [if_pos hji]; exact ih (j0+1) used
          · rw [if_neg hji]
        | Wrong => exact ih (j0+1) used
    · rw [if_neg hg]; exact ih (j0+1) used

theorem scanFrom_first_bad (gw : List Char) (mask : List Correctness) (w : Char) (i : Nat) :
    ∀ (fuel j0 : Nat) (used : Nat → Bool) (pl : Bool) (jst : Nat),
      j0 ≤ jst → jst < j0 + fuel →
      charAt gw jst = w → used jst = false →
      (maskAt mask jst = Correctness.Wrong ∨
        (maskAt mask jst = Correctness.Misplaced ∧ jst = i)) →
      (∀ j, j0 ≤ j → j < jst → ¬(charAt gw j = w ∧ used j = false)) →
      (scanFrom gw mask w i fuel j0 used pl).2.2 = false := by
  intro fuel
  induction fuel with
  | zero => intro j0 used pl jst h1 h2 _ _ _ _; omega
  | succ f ih =>
    intro j0 used pl jst h1 h2 hg hu hbad hfirst
    rw [scanFrom]
    rcases Nat.eq_or_lt_of_le h1 with rfl | hlt
    · rw [if_pos hg, if_neg (by simpa using hu)]
      rcases hbad with hw | ⟨hm, hji⟩
      · rw [hw]; exact scanFrom_pl_false gw mask w i f (j0+1) used
      · rw [hm, if_pos hji]; exact scanFrom_pl_false gw mask w i f (j0+1) used
    · have hskip : ¬(charAt gw j0 = w ∧ used j0 = false) :=
        hfirst j0 (le_refl _) hlt
      by_cases hg0 : charAt gw j0 = w
      · have hu0 : used j0 = true := by
          by_contra hu0
          exact hskip ⟨hg0, by simpa using hu0⟩
        rw [if_pos hg0, if_pos hu0]
        exact ih (j0+1) used pl jst (by omega) (by omega) hg hu hbad
          (fun j ha hb => hfirst j (by omega) hb)
      · rw [if_neg hg0]
        exact ih (j0+1) used pl jst (by omega) (by omega) hg hu hbad
          (fun j ha hb => hfirst j (by omega) hb)

theorem scanFrom_used_change (gw : List Char) (mask : List Correctness) (w : Char) (i : Nat) :
    ∀ (fuel j0 : Nat) (used : Nat → Bool) (pl : Bool) (k : Nat),
      ((scanFrom gw mask w i fuel j0 used pl).2.1) k = used k ∨ charAt gw k = w := by
  intro fuel
  induction fuel with
  | zero => intro j0 used pl k; exact Or.inl rfl
  | succ f ih =>
    intro j0 used pl k
    rw [scanFrom]
    by_cases hg : charAt gw j0 = w
    · rw [if_pos hg]
      by_cases hu : used j0 = true
      · rw [if_pos hu]; exact ih (j0+1) used pl k
      · rw [if_neg hu]
        cases hm : maskAt mask j0 with
        | Correct => exact ih (j0+1) used pl k
        | Misplaced =>
          by_cases hji : j0 = i
          · rw [if_pos hji]; exact ih (j0+1) used false k
          · rw [if_neg hji]
            by_cases hk : k = j0
            · exact Or.inr (hk ▸ hg)
            · exact Or.inl (by simp [hk])
        | Wrong => exact ih (j0+1) used false k
    · rw [if_neg hg]; exact ih (j0+1) used pl k

/-! ## Characterization of the mask produced by `compute`

For a letter `x`, `gPos a g x` is the set of non-green guess positions
holding `x`, and `aPos a g x` the set of non-green answer positions holding
`x`.  The yellow pass marks a non-green guess position `i` Misplaced exactly
when its rank among `gPos a g (g i)` is at most the number of non-green
answer positions holding the same letter. -/

/-- Non-green guess positions holding letter `x`. -/
def gPos (a g : List Char) (x : Char) : Finset ℕ :=
  (Finset.range 5).filter (fun j => charAt g j = x ∧ ¬ charAt a j = charAt g j)

/-- Non-green answer positions holding letter `x`. -/
def aPos (a g : List Char) (x : Char) : Finset ℕ :=
  (Finset.range 5).filter (fun p => charAt a p = x ∧ ¬ charAt a p = charAt g p)

/-- The value `compute` assigns to position `i` (to be proved below). -/
def mvalue (a g : List Char) (i : Nat) : Correctness :=
  if charAt a i = charAt g i then Correctness.Correct
  else if rnk (gPos a g (charAt g i)) i ≤ (aPos a g (charAt g i)).card then
    Correctness.Misplaced
  else Correctness.Wrong

/-- Green answer positions holding letter `x`. -/
def greenCntA (a g : List Char) (x : Char) : ℕ :=
  ((Finset.range 5).filter (fun p => charAt a p = x ∧ charAt a p = charAt g p)).card

/-- Used answer positions holding letter `x`. -/
def usedCntA (a : List Char) (used : Nat → Bool) (x : Char) : ℕ :=
  ((Finset.range 5).filter (fun p => charAt a p = x ∧ used p = true)).card

/-- Non-green guess positions holding `x` strictly before position `i`. -/
def qCnt (a g : List Char) (x : Char) (i : Nat) : ℕ :=
  ((gPos a g x).filter (fun j => j < i)).card

theorem green0_eq_correct_iff (a g : List Char) (i : Nat) :
    green0 a g i = Correctness.Correct ↔ charAt a i = charAt g i := by
  unfold green0
  split
  case isTrue h => simp [h]
  case isFalse h => simp [h]

theorem filter_lt_succ_not_mem {S : Finset ℕ} {i : ℕ} (h : i ∉ S) :
    S.filter (fun k => k < i+1) = S.filter (fun k => k < i) := by
  ext k
  simp only [Finset.mem_filter]
  constructor
  · rintro ⟨hk, hlt⟩
    refine ⟨hk, ?_⟩
    rcases Nat.lt_or_ge k i with h1 | h1
    · exact h1
    · obtain rfl : k = i := by omega
      exact absurd hk h
  · rintro ⟨hk, hlt⟩
    exact ⟨hk, by omega⟩

theorem filter_lt_succ_mem {S : Finset ℕ} {i : ℕ} (h : i ∈ S) :
    (S.filter (fun k => k < i+1)).card = (S.filter (fun k => k < i)).card + 1 := by
  have hins : S.filter (fun k => k < i+1) = insert i (S.filter (fun k => k < i)) := by
    ext k
    simp only [Finset.mem_filter, Finset.mem_insert]
    constructor
    · rintro ⟨hk, hlt⟩
      rcases Nat.lt_or_ge k i with h1 | h1
      · exact Or.inr ⟨hk, h1⟩
      · exact Or.inl (by omega)
    · rintro (rfl | ⟨hk, hlt⟩)
      · exact ⟨h, by omega⟩
      · exact ⟨hk, by omega⟩
  rw [hins, Finset.card_insert_of_not_mem (by simp)]

theorem usedCntA_update_same (a : List Char) (used : Nat → Bool) (p : Nat) (x : Char)
    (hp : p < 5) (hx : charAt a p = x) (hu : used p = false) :
    usedCntA a (fun k => if k = p then true else used k) x = usedCntA a used x + 1 := by
  unfold usedCntA
  have hins : (Finset.range 5).filter
        (fun q => charAt a q = x ∧ (if q = p then true else used q) = true) =
      insert p ((Finset.range 5).filter (fun q => charAt a q = x ∧ used q = true)) := by
    ext k
    simp only [Finset.mem_filter, Finset.mem_insert, Finset.mem_range]
    by_cases hk : k = p
    · subst hk
      simp [hx, hp]
    · simp [hk]
  rw [hins, Finset.card_insert_of_not_mem (by simp [hu])]

theorem usedCntA_update_other (a : List Char) (used : Nat → Bool) (p : Nat) (y : Char)
    (hy : ¬ charAt a p = y) :
    usedCntA a (fun k => if k = p then true else used k) y = usedCntA a used y := by
  unfold usedCntA
  congr 1
  ext k
  simp only [Finset.mem_filter, Finset.mem_range]
  by_cases hk : k = p
  · subst hk
    simp [hy]
  · simp [hk]

theorem total_split_green (a g : List Char) (x : Char) :
    ((Finset.range 5).filter (fun p => charAt a p = x)).card =
      greenCntA a g x + (aPos a g x).card := by
  unfold greenCntA aPos
  rw [← Finset.filter_filter, ← Finset.filter_filter]
  exact (Finset.filter_card_add_filter_neg_card_eq_card
    (s := (Finset.range 5).filter (fun p => charAt a p = x))
    (p := fun p => charAt a p = charAt g p)).symm

theorem used_split (a : List Char) (used : Nat → Bool) (x : Char) :
    usedCntA a used x +
      ((Finset.range 5).filter (fun p => charAt a p = x ∧ used p = false)).card =
      ((Finset.range 5).filter (fun p => charAt a p = x)).card := by
  unfold usedCntA
  rw [← Finset.filter_filter, ← Finset.filter_filter]
  have hconv : ((Finset.range 5).filter (fun p => charAt a p = x)).filter
        (fun p => used p = false) =
      ((Finset.range 5).filter (fun p => charAt a p = x)).filter
        (fun p => ¬ used p = true) := by
    ext k
    simp
  rw [hconv]
  exact Finset.filter_card_add_filter_neg_card_eq_card
    (s := (Finset.range 5).filter (fun p => charAt a p = x))
    (p := fun p => used p = true)

/-- The loop invariant of the yellow pass, at guess position `i`:
positions `≥ i` still carry the green-pass value, positions `< i` already
carry their final `mvalue`, and for every letter the used answer positions
number the greens plus `min` of (non-green guess positions processed,
non-green answer positions available). -/
def YInv (a g : List Char) (i : Nat) (c : Nat → Correctness) (used : Nat → Bool) : Prop :=
  (∀ j, i ≤ j → c j = green0 a g j) ∧
  (∀ j, j < i → c j = mvalue a g j) ∧
  (∀ x : Char, usedCntA a used x = greenCntA a g x + min (qCnt a g x i) (aPos a g x).card)

theorem yellow_char (a g : List Char) :
    ∀ (fuel i : Nat) (c : Nat → Correctness) (used : Nat → Bool),
      i + fuel = 5 → YInv a g i c used →
      ∀ j, j < 5 → (yellowFrom a g fuel i c used).1 j = mvalue a g j := by
  intro fuel
  induction fuel with
  | zero =>
    intro i c used hfi hinv j hj
    exact hinv.2.1 j (by omega)
  | succ f ih =>
    intro i c used hfi hinv j hj
    obtain ⟨h1, h2, h3⟩ := hinv
    have hi5 : i < 5 := by omega
    have hci : c i = green0 a g i := h1 i (le_refl i)
    rw [yellowFrom]
    by_cases hgr : c i = Correctness.Correct
    · -- green position: skip, nothing changes
      have hgi : charAt a i = charAt g i :=
        (green0_eq_correct_iff a g i).1 (hci ▸ hgr)
      rw [if_pos hgr]
      refine ih (i+1) c used (by omega) ?_ j hj
      refine ⟨fun k hk => h1 k (by omega), ?_, ?_⟩
      · intro k hk
        rcases Nat.lt_or_ge k i with hki | hki
        · exact h2 k hki
        · obtain rfl : k = i := by omega
          simp only [mvalue]
          rw [if_pos hgi]
          exact hgr
      · intro x
        have hnm : i ∉ gPos a g x := by
          intro hmem
          exact absurd hgi (Finset.mem_filter.1 hmem).2.2
        have : qCnt a g x (i+1) = qCnt a g x i := by
          unfold qCnt
          rw [filter_lt_succ_not_mem hnm]
        rw [this]
        exact h3 x
    · -- non-green position: scan the answer for the guessed letter
      have hne : ¬ charAt a i = charAt g i := by
        intro hgi
        exact hgr (hci ▸ (green0_eq_correct_iff a g i).2 hgi)
      have himem : i ∈ gPos a g (charAt g i) :=
        Finset.mem_filter.2 ⟨Finset.mem_range.2 hi5, rfl, hne⟩
      have hrnk : rnk (gPos a g (charAt g i)) i = qCnt a g (charAt g i) i + 1 :=
        rnk_eq_card_lt_add_one himem
      have hqsucc : qCnt a g (charAt g i) (i+1) = qCnt a g (charAt g i) i + 1 := by
        unfold qCnt
        exact filter_lt_succ_mem himem
      rw [if_neg hgr]
      cases hfind : findUnusedFrom a (charAt g i) 5 0 used with
      | some p =>
        obtain ⟨-, hp5, hpx, hpu⟩ := findUnusedFrom_some a (charAt g i) 5 0 used p hfind
        -- an unused answer position with this letter exists, so q < r
        have hlt : qCnt a g (charAt g i) i < (aPos a g (charAt g i)).card := by
          have hwit : ((Finset.range 5).filter
              (fun q => charAt a q = charAt g i ∧ used q = false)).Nonempty :=
            ⟨p, Finset.mem_filter.2 ⟨Finset.mem_range.2 (by omega), hpx, hpu⟩⟩
          have hpos := Finset.card_pos.2 hwit
          have hsplit := used_split a used (charAt g i)
          have htot := total_split_green a g (charAt g i)
          have h3x := h3 (charAt g i)
          rcases Nat.lt_or_ge (qCnt a g (charAt g i) i) (aPos a g (charAt g i)).card with h | h
          · exact h
          · rw [Nat.min_eq_right h] at h3x
            omega
        refine ih (i+1) _ _ (by omega) ?_ j hj
        refine ⟨?_, ?_, ?_⟩
        · intro k hk
          have hki : ¬ k = i := by omega
          show (if k = i then Correctness.Misplaced else c k) = green0 a g k
          rw [if_neg hki]
          exact h1 k (by omega)
        · intro k hk
          rcases Nat.lt_or_ge k i with hki | hki
          · have hkne : ¬ k = i := by omega
            show (if k = i then Correctness.Misplaced else c k) = mvalue a g k
            rw [if_neg hkne]
            exact h2 k hki
          · obtain rfl : k = i := by omega
            show (if k = k then Correctness.Misplaced else c k) = mvalue a g k
            rw [if_pos rfl]
            simp only [mvalue]
            rw [if_neg hne, if_pos (by omega)]
        · intro y
          by_cases hy : y = charAt g i
          · subst hy
            rw [usedCntA_update_same a used p (charAt g i) (by omega) hpx hpu,
              h3 (charAt g i), hqsucc, Nat.min_eq_left (Nat.le_of_lt hlt),
              Nat.min_eq_left (by omega)]
            omega
          · have hpy : ¬ charAt a p = y := by
              rw [hpx]
              intro hh
              exact hy hh.symm
            rw [usedCntA_update_other a used p y hpy]
            have hnm : i ∉ gPos a g y := by
              intro hmem
              exact hy ((Finset.mem_filter.1 hmem).2.1).symm
            have hq : qCnt a g y (i+1) = qCnt a g y i := by
              unfold qCnt
              rw [filter_lt_succ_not_mem hnm]
            rw [hq]
            exact h3 y
      | none =>
        -- no unused answer position with this letter: q ≥ r, mark stays Wrong
        have hge : (aPos a g (charAt g i)).card ≤ qCnt a g (charAt g i) i := by
          have hnone := findUnusedFrom_none a (charAt g i) 5 0 used hfind
          have hempty : ((Finset.range 5).filter
              (fun q => charAt a q = charAt g i ∧ used q = false)) = ∅ := by
            apply Finset.eq_empty_of_forall_not_mem
            intro q hq
            obtain ⟨hq5, hqx, hqu⟩ := Finset.mem_filter.1 hq
            exact hnone q (by omega) (by simpa using Finset.mem_range.1 hq5) ⟨hqx, hqu⟩
          have hsplit := used_split a used (charAt g i)
          have htot := total_split_green a g (charAt g i)
          have h3x := h3 (charAt g i)
          rw [hempty] at hsplit
          simp only [Finset.card_empty] at hsplit
          rcases Nat.lt_or_ge (qCnt a g (charAt g i) i) (aPos a g (charAt g i)).card with h | h
          · rw [Nat.min_eq_left (by omega)] at h3x
            omega
          · exact h
        refine ih (i+1) c used (by omega) ?_ j hj
        refine ⟨fun k hk => h1 k (by omega), ?_, ?_⟩
        · intro k hk
          rcases Nat.lt_or_ge k i with hki | hki
          · exact h2 k hki
          · obtain rfl : k = i := by omega
            rw [hci]
            simp only [green0, mvalue]
            rw [if_neg hne, if_neg hne, if_neg (by omega)]
        · intro y
          by_cases hy : y = charAt g i
          · subst hy
            rw [hqsucc, h3 (charAt g i), Nat.min_eq_right hge,
              Nat.min_eq_right (by omega)]
          · have hnm : i ∉ gPos a g y := by
              intro hmem
              exact hy ((Finset.mem_filter.1 hmem).2.1).symm
            have hq : qCnt a g y (i+1) = qCnt a g y i := by
              unfold qCnt
              rw [filter_lt_succ_not_mem hnm]
            rw [hq]
            exact h3 y

theorem maskAt_maskOf (a g : List Char) (j : Nat) (hj : j < 5) :
    maskAt (maskOf a g) j = (yellowFrom a g 5 0 (green0 a g) (used0 a g)).1 j := by
  unfold maskAt maskOf
  rw [List.getD_eq_getElem?_getD, List.getElem?_map, List.getElem?_range hj]
  rfl

/-- The final mask characterization: position `j` of `compute`'s mask carries
`mvalue a g j`. -/
theorem compute_mask_char (a g : List Char) (j : Nat) (hj : j < 5) :
    maskAt (maskOf a g) j = mvalue a g j := by
  rw [maskAt_maskOf a g j hj]
  refine yellow_char a g 5 0 (green0 a g) (used0 a g) (by omega) ?_ j hj
  refine ⟨fun k _ => rfl, fun k hk => absurd hk (by omega), fun x => ?_⟩
  have hq0 : qCnt a g x 0 = 0 := by
    unfold qCnt
    rw [Finset.eq_empty_of_forall_not_mem
      (fun k hk => absurd (Finset.mem_filter.1 hk).2 (by omega))]
    rfl
  rw [hq0, Nat.zero_min, Nat.add_zero]
  unfold usedCntA greenCntA
  congr 1
  ext k
  simp [used0, green0_eq_correct_iff]

theorem mask_correct_iff (a g : List Char) (j : Nat) (hj : j < 5) :
    maskAt (maskOf a g) j = Correctness.Correct ↔ charAt a j = charAt g j := by
  rw [compute_mask_char a g j hj]
  simp only [mvalue]
  split
  case isTrue h => simp [h]
  case isFalse h => split <;> simp [h]

theorem mask_misplaced_iff (a g : List Char) (j : Nat) (hj : j < 5) :
    maskAt (maskOf a g) j = Correctness.Misplaced ↔
      (¬ charAt a j = charAt g j ∧
        rnk (gPos a g (charAt g j)) j ≤ (aPos a g (charAt g j)).card) := by
  rw [compute_mask_char a g j hj]
  simp only [mvalue]
  split
  case isTrue h => simp [h]
  case isFalse h =>
    split
    case isTrue h2 => simp [h, h2]
    case isFalse h2 => simp [h, h2]

/-- Occurrence counting in a list as a `Finset.card` over positions. -/
theorem count_eq_card_filter (l : List Char) (x : Char) :
    l.count x = ((Finset.range l.length).filter (fun i => charAt l i = x)).card := by
  induction l with
  | nil => simp
  | cons c t ih =>
    have hstep : ∀ i : Nat, charAt (c :: t) (i+1) = charAt t i := fun i => rfl
    rw [List.count_cons, List.length_cons, Finset.card_filter, Finset.sum_range_succ']
    have hsum : ∀ i ∈ Finset.range t.length,
        (if charAt (c :: t) (i+1) = x then (1:ℕ) else 0) =
          if charAt t i = x then 1 else 0 :=
      fun i _ => by rw [hstep i]
    rw [Finset.sum_congr rfl hsum, ← Finset.card_filter, ← ih]
    have h0 : charAt (c :: t) 0 = c := rfl
    rw [h0]
    simp [beq_iff_eq]

/-! ## C2: duplicate-letter bounds of `compute` -/

/-- C2: for every letter `L`, the mask of `compute(answer, guess)` has at
most `occ(L, answer)` Correct entries at guess positions holding `L`, and at
most `occ(L, answer)` Correct-or-Misplaced entries at those positions. -/
theorem compute_letter_occurrence_bounds (a g : List Char) (mask : List Correctness)
    (ha : a.length = 5) (hg : g.length = 5)
    (hm : Correctness.compute a g = some mask) (L : Char) :
    ((Finset.range 5).filter
      (fun i => charAt g i = L ∧ maskAt mask i = Correctness.Correct)).card ≤ a.count L
    ∧ ((Finset.range 5).filter
      (fun i => charAt g i = L ∧ (maskAt mask i = Correctness.Correct ∨
        maskAt mask i = Correctness.Misplaced))).card ≤ a.count L := by
  have hmask : mask = maskOf a g := by
    rw [compute_eq_some a g ha hg] at hm
    exact (Option.some.inj hm).symm
  subst hmask
  have hcount : a.count L = ((Finset.range 5).filter (fun i => charAt a i = L)).card := by
    rw [count_eq_card_filter, ha]
  constructor
  · rw [hcount]
    apply Finset.card_le_card
    intro i hi
    obtain ⟨hir, hgi, hci⟩ := Finset.mem_filter.1 hi
    have hgreen : charAt a i = charAt g i :=
      (mask_correct_iff a g i (Finset.mem_range.1 hir)).1 hci
    exact Finset.mem_filter.2 ⟨hir, by rw [hgreen, hgi]⟩
  · -- split Correct-or-Misplaced positions into greens and misplaced ones
    have hsub : (Finset.range 5).filter
        (fun i => charAt g i = L ∧ (maskAt (maskOf a g) i = Correctness.Correct ∨
          maskAt (maskOf a g) i = Correctness.Misplaced)) ⊆
        ((Finset.range 5).filter (fun p => charAt a p = L ∧ charAt a p = charAt g p)) ∪
          ((gPos a g L).filter (fun j => rnk (gPos a g L) j ≤ (aPos a g L).card)) := by
      intro i hi
      obtain ⟨hir, hgi, hci⟩ := Finset.mem_filter.1 hi
      have hi5 : i < 5 := Finset.mem_range.1 hir
      rcases hci with hc | hmp
      · have hgreen : charAt a i = charAt g i := (mask_correct_iff a g i hi5).1 hc
        exact Finset.mem_union_left _
          (Finset.mem_filter.2 ⟨hir, by rw [hgreen, hgi], hgreen⟩)
      · obtain ⟨hng, hrle⟩ := (mask_misplaced_iff a g i hi5).1 hmp
        rw [hgi] at hrle
        exact Finset.mem_union_right _
          (Finset.mem_filter.2 ⟨Finset.mem_filter.2 ⟨hir, hgi, hng⟩, hrle⟩)
    have hbound := le_trans (Finset.card_le_card hsub) (Finset.card_union_le _ _)
    have hgreen_eq : ((Finset.range 5).filter
        (fun p => charAt a p = L ∧ charAt a p = charAt g p)).card = greenCntA a g L := rfl
    have hmis_le : ((gPos a g L).filter
        (fun j => rnk (gPos a g L) j ≤ (aPos a g L).card)).card ≤ (aPos a g L).card :=
      card_rnk_le (gPos a g L) (aPos a g L).card
    have htot := total_split_green a g L
    rw [hcount]
    omega

/-- Witness for C2 at a duplicate-letter instance: `compute("aabbb","aaccc")`
with letter `a`. -/
theorem compute_letter_occurrence_bounds_witness :
    ((Finset.range 5).filter
      (fun i => charAt ['a','a','c','c','c'] i = 'a' ∧
        maskAt [Correctness.Correct, Correctness.Correct, Correctness.Wrong,
          Correctness.Wrong, Correctness.Wrong] i = Correctness.Correct)).card ≤
      ['a','a','b','b','b'].count 'a'
    ∧ ((Finset.range 5).filter
      (fun i => charAt ['a','a','c','c','c'] i = 'a' ∧
        (maskAt [Correctness.Correct, Correctness.Correct, Correctness.Wrong,
          Correctness.Wrong, Correctness.Wrong] i = Correctness.Correct ∨
         maskAt [Correctness.Correct, Correctness.Correct, Correctness.Wrong,
          Correctness.Wrong, Correctness.Wrong] i = Correctness.Misplaced))).card ≤
      ['a','a','b','b','b'].count 'a' :=
  compute_letter_occurrence_bounds ['a','a','b','b','b'] ['a','a','c','c','c']
    [Correctness.Correct, Correctness.Correct, Correctness.Wrong,
      Correctness.Wrong, Correctness.Wrong]
    (by decide) (by decide) (by decide) 'a'

/-! ## The consistency filter accepts the answer (C1)

The matcher, run on the very answer the mask was computed from, replays the
per-letter accounting: candidate position `i` (non-green, letter `x`) always
finds the next unused non-green guess position holding `x`, and that position
is always marked Misplaced, never Wrong. -/

/-- Non-green answer positions holding `x` strictly before candidate
position `i` — how many guess positions for `x` the match loop has consumed. -/
def pCnt (a g : List Char) (x : Char) (i : Nat) : ℕ :=
  ((aPos a g x).filter (fun p => p < i)).card

theorem pCnt_succ_of_green (a g : List Char) (i : Nat)
    (hgi : charAt a i = charAt g i) (y : Char) :
    pCnt a g y (i+1) = pCnt a g y i := by
  unfold pCnt
  rw [filter_lt_succ_not_mem (fun hmem => (Finset.mem_filter.1 hmem).2.2 hgi)]

theorem pCnt_succ_of_other (a g : List Char) (i : Nat) (y : Char)
    (hy : ¬ charAt a i = y) :
    pCnt a g y (i+1) = pCnt a g y i := by
  unfold pCnt
  rw [filter_lt_succ_not_mem (fun hmem => hy (Finset.mem_filter.1 hmem).2.1)]

theorem pCnt_succ_self (a g : List Char) (i : Nat) (hi : i < 5)
    (hne : ¬ charAt a i = charAt g i) :
    pCnt a g (charAt a i) (i+1) = pCnt a g (charAt a i) i + 1 := by
  unfold pCnt
  exact filter_lt_succ_mem (Finset.mem_filter.2 ⟨Finset.mem_range.2 hi, rfl, hne⟩)

/-- The invariant of the match loop run on candidate = answer: a guess
position is used exactly when it is green, or when it is a non-green position
whose rank (among non-green positions of its letter) is at most the number of
already-processed non-green answer positions of that letter, capped at the
number of such guess positions. -/
def MInv (a g : List Char) (i : Nat) (used : Nat → Bool) : Prop :=
  ∀ j, used j = true ↔ (j < 5 ∧ (charAt a j = charAt g j ∨
    (¬ charAt a j = charAt g j ∧
      rnk (gPos a g (charAt g j)) j ≤
        min (pCnt a g (charAt g j) i) (gPos a g (charAt g j)).card)))

theorem match_loop_true (a g : List Char) :
    ∀ (fuel i : Nat) (used : Nat → Bool), i + fuel = 5 → MInv a g i used →
      matchFrom g (maskOf a g) a fuel i used = true := by
  intro fuel
  induction fuel with
  | zero => intro i used _ _; rfl
  | succ f ih =>
    intro i used hfi hinv
    have hi5 : i < 5 := by omega
    rw [matchFrom]
    by_cases hgr : maskAt (maskOf a g) i = Correctness.Correct
    · rw [if_pos hgr]
      refine ih (i+1) used (by omega) ?_
      have hgi : charAt a i = charAt g i := (mask_correct_iff a g i hi5).1 hgr
      intro j
      rw [hinv j, pCnt_succ_of_green a g i hgi (charAt g j)]
    · rw [if_neg hgr]
      have hne : ¬ charAt a i = charAt g i :=
        fun h => hgr ((mask_correct_iff a g i hi5).2 h)
      have hpsucc := pCnt_succ_self a g i hi5 hne
      have hple : pCnt a g (charAt a i) i + 1 ≤ (aPos a g (charAt a i)).card := by
        have h1 : pCnt a g (charAt a i) (i+1) ≤ (aPos a g (charAt a i)).card :=
          Finset.card_le_card (Finset.filter_subset _ _)
        omega
      by_cases hcase : pCnt a g (charAt a i) i < (gPos a g (charAt a i)).card
      · -- the scan finds the next unused non-green guess position of this letter
        obtain ⟨jst, hjmem, hjrnk⟩ :=
          exists_rnk (gPos a g (charAt a i)) (pCnt a g (charAt a i) i + 1)
            (by omega) (by omega)
        obtain ⟨hjr5, hjx, hjng⟩ := Finset.mem_filter.1 hjmem
        have hj5 : jst < 5 := Finset.mem_range.1 hjr5
        have hjused : used jst = false := by
          cases hju : used jst with
          | false => rfl
          | true =>
            have hsp := (hinv jst).1 hju
            rcases hsp.2 with hgrj | ⟨hngj, hrle⟩
            · exact absurd hgrj hjng
            · rw [hjx, hjrnk] at hrle
              have hmin :=
                Nat.min_le_left (pCnt a g (charAt a i) i) (gPos a g (charAt a i)).card
              omega
        have hjmask : maskAt (maskOf a g) jst = Correctness.Misplaced := by
          refine (mask_misplaced_iff a g jst hj5).2 ⟨hjng, ?_⟩
          rw [hjx, hjrnk]
          exact hple
        have hjne : ¬ jst = i := by
          intro h
          rw [h] at hjx
          exact hne hjx.symm
        have hfirst : ∀ j, 0 ≤ j → j < jst →
            ¬(charAt g j = charAt a i ∧ used j = false) := by
          rintro j _ hjlt ⟨hgj, huj⟩
          have hj5x : j < 5 := by omega
          by_cases hgrj : charAt a j = charAt g j
          · have hjt := (hinv j).2 ⟨hj5x, Or.inl hgrj⟩
            rw [hjt] at huj
            cases huj
          · have hjmem2 : j ∈ gPos a g (charAt a i) :=
              Finset.mem_filter.2 ⟨Finset.mem_range.2 hj5x, hgj, hgrj⟩
            have hrlt : rnk (gPos a g (charAt a i)) j < pCnt a g (charAt a i) i + 1 := by
              rw [← hjrnk]
              exact rnk_lt_of_mem_lt hjmem hjlt
            have hrn := rnk_le_card (gPos a g (charAt a i)) j
            have hjt := (hinv j).2 ⟨hj5x, Or.inr ⟨hgrj, by
              rw [hgj]
              exact Nat.le_min.2 ⟨by omega, hrn⟩⟩⟩
            rw [hjt] at huj
            cases huj
        rw [scanFrom_found g (maskOf a g) (charAt a i) i 5 0 used true jst
          (by omega) (by omega) hjx hjused hjmask hjne hfirst]
        dsimp only
        rw [if_pos ⟨rfl, rfl⟩]
        refine ih (i+1) _ (by omega) ?_
        intro k
        show (if k = jst then true else used k) = true ↔
          (k < 5 ∧ (charAt a k = charAt g k ∨
            (¬ charAt a k = charAt g k ∧
              rnk (gPos a g (charAt g k)) k ≤
                min (pCnt a g (charAt g k) (i+1)) (gPos a g (charAt g k)).card)))
        by_cases hk : k = jst
        · subst hk
          rw [if_pos rfl]
          constructor
          · intro _
            refine ⟨hj5, Or.inr ⟨hjng, ?_⟩⟩
            rw [hjx, hjrnk, hpsucc]
            exact Nat.le_min.2 ⟨le_refl _, by omega⟩
          · intro _
            rfl
        · rw [if_neg hk, hinv k]
          by_cases hxk : charAt g k = charAt a i
          · rw [hxk, hpsucc]
            constructor
            · rintro ⟨hk5, hd⟩
              refine ⟨hk5, ?_⟩
              rcases hd with hgreen | ⟨hng, hr⟩
              · exact Or.inl hgreen
              · exact Or.inr ⟨hng,
                  le_trans hr (min_le_min (Nat.le_succ _) (le_refl _))⟩
            · rintro ⟨hk5, hd⟩
              refine ⟨hk5, ?_⟩
              rcases hd with hgreen | ⟨hng, hr⟩
              · exact Or.inl hgreen
              · refine Or.inr ⟨hng, ?_⟩
                have hkmem : k ∈ gPos a g (charAt a i) :=
                  Finset.mem_filter.2
                    ⟨Finset.mem_range.2 hk5, hxk, fun hh => hng (hh.trans hxk)⟩
                have hner : ¬ rnk (gPos a g (charAt a i)) k =
                    pCnt a g (charAt a i) i + 1 := by
                  intro hcontra
                  exact hk (rnk_injOn _ k hkmem jst hjmem (hcontra.trans hjrnk.symm))
                have h1 := Nat.le_min.1 hr
                exact Nat.le_min.2 ⟨by omega, h1.2⟩
          · rw [pCnt_succ_of_other a g i (charAt g k) (fun hh => hxk hh.symm)]
      · -- all non-green guess positions of this letter are already consumed
        have hge : (gPos a g (charAt a i)).card ≤ pCnt a g (charAt a i) i := by omega
        have hnoelig : ∀ j, 0 ≤ j → j < 0 + 5 →
            ¬(charAt g j = charAt a i ∧ used j = false) := by
          rintro j _ hj5x ⟨hgj, huj⟩
          by_cases hgrj : charAt a j = charAt g j
          · have hjt := (hinv j).2 ⟨by omega, Or.inl hgrj⟩
            rw [hjt] at huj
            cases huj
          · have hjmem2 : j ∈ gPos a g (charAt a i) :=
              Finset.mem_filter.2 ⟨Finset.mem_range.2 (by omega), hgj, hgrj⟩
            have hrn := rnk_le_card (gPos a g (charAt a i)) j
            have hjt := (hinv j).2 ⟨by omega, Or.inr ⟨hgrj, by
              rw [hgj]
              exact Nat.le_min.2 ⟨by omega, hrn⟩⟩⟩
            rw [hjt] at huj
            cases huj
        rw [scanFrom_no_elig g (maskOf a g) (charAt a i) i 5 0 used true hnoelig]
        dsimp only
        rw [if_neg (by simp), if_neg (by simp)]
        refine ih (i+1) used (by omega) ?_
        intro k
        rw [hinv k]
        by_cases hxk : charAt g k = charAt a i
        · rw [hxk, hpsucc, Nat.min_eq_right hge, Nat.min_eq_right (by omega)]
        · rw [pCnt_succ_of_other a g i (charAt g k) (fun hh => hxk hh.symm)]

theorem greenFrom_char (gw : List Char) (mask : List Correctness) (cand : List Char)
    (hOK : ∀ j, j < 5 → maskAt mask j = Correctness.Correct →
      charAt gw j = charAt cand j) :
    ∀ (fuel i : Nat) (used : Nat → Bool), i + fuel = 5 →
      ∃ u, greenFrom gw mask cand fuel i used = some u ∧
        (∀ k, u k = true ↔
          (used k = true ∨ (i ≤ k ∧ k < 5 ∧ maskAt mask k = Correctness.Correct))) := by
  intro fuel
  induction fuel with
  | zero =>
    intro i used hfi
    refine ⟨used, rfl, fun k => ⟨fun h => Or.inl h, ?_⟩⟩
    rintro (h | ⟨h1, h2, _⟩)
    · exact h
    · omega
  | succ f ih =>
    intro i used hfi
    rw [greenFrom]
    by_cases hm : maskAt mask i = Correctness.Correct
    · rw [if_pos hm, if_pos (hOK i (by omega) hm)]
      obtain ⟨u, hu, hspec⟩ := ih (i+1) (fun k => if k = i then true else used k) (by omega)
      refine ⟨u, hu, fun k => ?_⟩
      rw [hspec k]
      constructor
      · rintro (h | ⟨h1, h2, h3⟩)
        · by_cases hk : k = i
          · subst hk
            exact Or.inr ⟨le_refl k, by omega, hm⟩
          · rw [if_neg hk] at h
            exact Or.inl h
        · exact Or.inr ⟨by omega, h2, h3⟩
      · rintro (h | ⟨h1, h2, h3⟩)
        · by_cases hk : k = i
          · subst hk
            exact Or.inl (by rw [if_pos rfl])
          · exact Or.inl (by rw [if_neg hk]; exact h)
        · by_cases hk : k = i
          · subst hk
            exact Or.inl (by rw [if_pos rfl])
          · refine Or.inr ⟨?_, h2, h3⟩
            omega
    · rw [if_neg hm]
      obtain ⟨u, hu, hspec⟩ := ih (i+1) used (by omega)
      refine ⟨u, hu, fun k => ?_⟩
      rw [hspec k]
      constructor
      · rintro (h | ⟨h1, h2, h3⟩)
        · exact Or.inl h
        · exact Or.inr ⟨by omega, h2, h3⟩
      · rintro (h | ⟨h1, h2, h3⟩)
        · exact Or.inl h
        · refine Or.inr ⟨?_, h2, h3⟩
          have hk : ¬ k = i := fun hki => hm (hki ▸ h3)
          omega

theorem greenFrom_start (gw : List Char) (mask : List Correctness) (cand : List Char)
    (hOK : ∀ j, j < 5 → maskAt mask j = Correctness.Correct →
      charAt gw j = charAt cand j) :
    ∃ u, greenFrom gw mask cand 5 0 (fun _ => false) = some u ∧
      ∀ k, u k = true ↔ (k < 5 ∧ maskAt mask k = Correctness.Correct) := by
  obtain ⟨u, hu, hspec⟩ := greenFrom_char gw mask cand hOK 5 0 (fun _ => false) (by omega)
  refine ⟨u, hu, fun k => ?_⟩
  rw [hspec k]
  constructor
  · rintro (h | ⟨_, h2, h3⟩)
    · cases h
    · exact ⟨h2, h3⟩
  · rintro ⟨h2, h3⟩
    exact Or.inr ⟨Nat.zero_le k, h2, h3⟩

/-! ## C1: the answer always passes its own consistency filter -/

/-- C1: for any 5-letter answer `a` and guess `g`, the answer passes the
filter built from the guess and its computed mask:
`matches(Guess::new(g, compute(a,g)), a) = true`.  The special case `w = a`
of the claim is the instance `g := a`. -/
theorem answer_passes_own_filter (a g : List Char) (mask : List Correctness)
    (ha : a.length = 5) (hg : g.length = 5)
    (hm : Correctness.compute a g = some mask) :
    Guess.matches (Guess.new g mask) a = some true := by
  have hmask : mask = maskOf a g := by
    rw [compute_eq_some a g ha hg] at hm
    exact (Option.some.inj hm).symm
  subst hmask
  dsimp only [Guess.matches, Guess.new]
  rw [if_pos (⟨hg, ha⟩ : g.length = 5 ∧ a.length = 5)]
  obtain ⟨u, hu, huspec⟩ := greenFrom_start g (maskOf a g) a
    (fun j hj hc => ((mask_correct_iff a g j hj).1 hc).symm)
  rw [hu]
  have hmatch : matchFrom g (maskOf a g) a 5 0 u = true := by
    refine match_loop_true a g 5 0 u (by omega) ?_
    intro k
    rw [huspec k]
    constructor
    · rintro ⟨hk5, hc⟩
      exact ⟨hk5, Or.inl ((mask_correct_iff a g k hk5).1 hc)⟩
    · rintro ⟨hk5, hd⟩
      rcases hd with hgreen | ⟨hng, hr⟩
      · exact ⟨hk5, (mask_correct_iff a g k hk5).2 hgreen⟩
      · have h0 : pCnt a g (charAt g k) 0 = 0 := by
          unfold pCnt
          rw [Finset.eq_empty_of_forall_not_mem
            (fun p hp => absurd (Finset.mem_filter.1 hp).2 (by omega))]
          rfl
        rw [h0, Nat.zero_min] at hr
        have hmem : k ∈ gPos a g (charAt g k) :=
          Finset.mem_filter.2 ⟨Finset.mem_range.2 hk5, rfl, hng⟩
        have := rnk_pos_of_mem hmem
        omega
  dsimp only
  rw [hmatch]

/-- Witness for C1 at a concrete pair: the answer `right` passes the filter
generated from the guess `wrong` and its computed mask. -/
theorem answer_passes_own_filter_witness :
    Guess.matches (Guess.new ['w','r','o','n','g']
      [Correctness.Wrong, Correctness.Misplaced, Correctness.Wrong,
        Correctness.Wrong, Correctness.Misplaced]) ['r','i','g','h','t'] = some true :=
  answer_passes_own_filter ['r','i','g','h','t'] ['w','r','o','n','g']
    [Correctness.Wrong, Correctness.Misplaced, Correctness.Wrong,
      Correctness.Wrong, Correctness.Misplaced]
    (by decide) (by decide) (by decide)

/-! ## C3: what the matcher actually does at Misplaced positions

The matcher iterates over *candidate* positions and scans guess positions for
the candidate's letter, so a Misplaced mask entry as such imposes no
requirement; rejection happens only when a scanned candidate letter first
meets a Wrong position, or meets the Misplaced position `i` itself while
processing candidate position `i`. -/

theorem greenFrom_some_spec (gw : List Char) (mask : List Correctness) (cand : List Char) :
    ∀ (fuel i : Nat) (used u : Nat → Bool),
      greenFrom gw mask cand fuel i used = some u →
      ∀ k, u k = true ↔
        (used k = true ∨ (i ≤ k ∧ k < i + fuel ∧ maskAt mask k = Correctness.Correct)) := by
  intro fuel
  induction fuel with
  | zero =>
    intro i used u h k
    obtain rfl : used = u := by injection h
    constructor
    · exact fun h2 => Or.inl h2
    · rintro (h2 | ⟨h1, h2, _⟩)
      · exact h2
      · omega
  | succ f ih =>
    intro i used u h k
    rw [greenFrom] at h
    by_cases hmC : maskAt mask i = Correctness.Correct
    · rw [if_pos hmC] at h
      by_cases hag : charAt gw i = charAt cand i
      · rw [if_pos hag] at h
        rw [ih (i+1) _ u h k]
        constructor
        · rintro (h2 | ⟨h1, h2, h3⟩)
          · by_cases hk : k = i
            · subst hk
              exact Or.inr ⟨le_refl k, by omega, hmC⟩
            · rw [if_neg hk] at h2
              exact Or.inl h2
          · exact Or.inr ⟨by omega, by omega, h3⟩
        · rintro (h2 | ⟨h1, h2, h3⟩)
          · by_cases hk : k = i
            · subst hk
              exact Or.inl (by rw [if_pos rfl])
            · exact Or.inl (by rw [if_neg hk]; exact h2)
          · by_cases hk : k = i
            · subst hk
              exact Or.inl (by rw [if_pos rfl])
            · exact Or.inr ⟨by omega, by omega, h3⟩
      · rw [if_neg hag] at h
        cases h
    · rw [if_neg hmC] at h
      rw [ih (i+1) used u h k]
      constructor
      · rintro (h2 | ⟨h1, h2, h3⟩)
        · exact Or.inl h2
        · exact Or.inr ⟨by omega, by omega, h3⟩
      · rintro (h2 | ⟨h1, h2, h3⟩)
        · exact Or.inl h2
        · have hk : ¬ k = i := fun hki => hmC (hki ▸ h3)
          exact Or.inr ⟨by omega, by omega, h3⟩

/-- If candidate position `i` carries the same letter as the Misplaced guess
position `i`, no other guess position of that letter is available (they are
all Correct), and no earlier candidate position supplies that letter, then
the match loop rejects. -/
theorem matchFrom_reject (gw : List Char) (mask : List Correctness) (cand : List Char)
    (i : Nat) (hi : i < 5) (hm : maskAt mask i = Correctness.Misplaced)
    (heq : charAt cand i = charAt gw i)
    (honly : ∀ j, j < 5 → ¬ j = i → charAt gw j = charAt gw i →
      maskAt mask j = Correctness.Correct)
    (hearlier : ∀ p, p < i → ¬ maskAt mask p = Correctness.Correct →
      ¬ charAt cand p = charAt gw i) :
    ∀ (fuel i0 : Nat) (used : Nat → Bool), i0 + fuel = 5 → i0 ≤ i →
      (∀ j, j < 5 → charAt gw j = charAt gw i →
        (used j = true ↔ maskAt mask j = Correctness.Correct)) →
      matchFrom gw mask cand fuel i0 used = false := by
  intro fuel
  induction fuel with
  | zero => intro i0 used hfi hle _; omega
  | succ f ih =>
    intro i0 used hfi hle hinvw
    rw [matchFrom]
    rcases Nat.eq_or_lt_of_le hle with heq0 | hlt
    · -- now processing position i itself
      subst heq0
      rw [if_neg (by simp [hm])]
      have hscan := scanFrom_first_bad gw mask (charAt cand i0) i0 5 0 used true i0
        (by omega) (by omega) heq.symm
        (by
          cases hu : used i0 with
          | false => rfl
          | true =>
            have hc := (hinvw i0 hi rfl).1 hu
            rw [hm] at hc
            cases hc)
        (Or.inr ⟨hm, rfl⟩)
        (by
          rintro j _ hji ⟨hgj, huj⟩
          have hgj2 : charAt gw j = charAt gw i0 := by rw [hgj, heq]
          have hj5 : j < 5 := by omega
          by_cases hjC : maskAt mask j = Correctness.Correct
          · have ht := (hinvw j hj5 hgj2).2 hjC
            rw [ht] at huj
            cases huj
          · exact hjC (honly j hj5 (by omega) hgj2))
      generalize hsc : scanFrom gw mask (charAt cand i0) i0 5 0 used true = t at hscan
      obtain ⟨found, used2, pl⟩ := t
      have hplf : pl = false := hscan
      subst hplf
      dsimp only
      rw [if_neg (by simp), if_pos rfl]
    · -- positions before i: candidate letters differ from the letter of i
      by_cases hC : maskAt mask i0 = Correctness.Correct
      · rw [if_pos hC]
        exact ih (i0+1) used (by omega) (by omega) hinvw
      · rw [if_neg hC]
        have hw2 : ¬ charAt cand i0 = charAt gw i := hearlier i0 hlt hC
        have hchange := scanFrom_used_change gw mask (charAt cand i0) i0 5 0 used true
        generalize hsc : scanFrom gw mask (charAt cand i0) i0 5 0 used true = t at hchange
        obtain ⟨found, used2, pl⟩ := t
        dsimp only
        have hinvw2 : ∀ j, j < 5 → charAt gw j = charAt gw i →
            (used2 j = true ↔ maskAt mask j = Correctness.Correct) := by
          intro j hj5 hgj
          rcases hchange j with he | hl
          · have he2 : used2 j = used j := he
            rw [he2]
            exact hinvw j hj5 hgj
          · exact absurd (hl.symm.trans hgj) hw2
        by_cases hfp : found = true ∧ pl = true
        · rw [if_pos hfp]
          exact ih (i0+1) used2 (by omega) (by omega) hinvw2
        · rw [if_neg hfp]
          by_cases hplf : pl = false
          · rw [if_pos hplf]
          · rw [if_neg hplf]
            exact ih (i0+1) used2 (by omega) (by omega) hinvw2

/-- C3 counterexample: both reject conditions the claim states fail on the
code.  `Guess("aabbb",[M,M,W,W,W])` matches `"caccc"` although candidate
position 1 carries the guess letter of the Misplaced position 1 (an earlier
candidate position consumed another guess position of that letter first), and
`Guess("abcde",[M,M,M,M,M])` matches `"mnopq"` although the candidate
contains none of the Misplaced letters. -/
theorem matches_misplaced_counterexample :
    Guess.matches (Guess.new ['a','a','b','b','b']
      [Correctness.Misplaced, Correctness.Misplaced, Correctness.Wrong,
        Correctness.Wrong, Correctness.Wrong]) ['c','a','c','c','c'] = some true
    ∧ charAt ['c','a','c','c','c'] 1 = charAt ['a','a','b','b','b'] 1
    ∧ maskAt [Correctness.Misplaced, Correctness.Misplaced, Correctness.Wrong,
        Correctness.Wrong, Correctness.Wrong] 1 = Correctness.Misplaced
    ∧ Guess.matches (Guess.new ['a','b','c','d','e']
      [Correctness.Misplaced, Correctness.Misplaced, Correctness.Misplaced,
        Correctness.Misplaced, Correctness.Misplaced]) ['m','n','o','p','q'] = some true
    ∧ maskAt [Correctness.Misplaced, Correctness.Misplaced, Correctness.Misplaced,
        Correctness.Misplaced, Correctness.Misplaced] 0 = Correctness.Misplaced
    ∧ ¬ 'a' ∈ ['m','n','o','p','q'] := by
  decide

/-- C3 (amended): a Misplaced position `i` with guess letter `w` forces
rejection only when the scan for `w`, run at candidate position `i` with
`candidate[i] = w`, reaches position `i` first — e.g. when every other guess
position holding `w` is Correct and no earlier candidate position supplies
`w`.  Conversely a Misplaced letter the candidate does not offer imposes no
requirement: if all Correct positions agree and no non-Correct candidate
letter occurs anywhere in the guess word, the matcher accepts. -/
theorem matches_misplaced_scan_rule :
    (∀ (gw cand : List Char) (mask : List Correctness) (i : Nat),
      gw.length = 5 → cand.length = 5 → i < 5 →
      maskAt mask i = Correctness.Misplaced →
      charAt cand i = charAt gw i →
      (∀ j, j < 5 → ¬ j = i → charAt gw j = charAt gw i →
        maskAt mask j = Correctness.Correct) →
      (∀ p, p < i → ¬ maskAt mask p = Correctness.Correct →
        ¬ charAt cand p = charAt gw i) →
      Guess.matches (Guess.new gw mask) cand = some false)
    ∧ (∀ (gw cand : List Char) (mask : List Correctness),
      gw.length = 5 → cand.length = 5 →
      (∀ j, j < 5 → maskAt mask j = Correctness.Correct →
        charAt gw j = charAt cand j) →
      (∀ p, p < 5 → ¬ maskAt mask p = Correctness.Correct →
        ∀ j, j < 5 → ¬ charAt gw j = charAt cand p) →
      Guess.matches (Guess.new gw mask) cand = some true) := by
  constructor
  · intro gw cand mask i hgw hc hi hm heq honly hearlier
    dsimp only [Guess.matches, Guess.new]
    rw [if_pos ⟨hgw, hc⟩]
    cases hgf : greenFrom gw mask cand 5 0 (fun _ => false) with
    | none => rfl
    | some u =>
      have huspec := greenFrom_some_spec gw mask cand 5 0 (fun _ => false) u hgf
      have hfalse : matchFrom gw mask cand 5 0 u = false := by
        refine matchFrom_reject gw mask cand i hi hm heq honly hearlier 5 0 u
          (by omega) (Nat.zero_le i) ?_
        intro j hj5 hgj
        rw [huspec j]
        constructor
        · rintro (h | ⟨_, _, h3⟩)
          · cases h
          · exact h3
        · intro h3
          exact Or.inr ⟨Nat.zero_le j, by omega, h3⟩
      dsimp only
      rw [hfalse]
  · intro gw cand mask hgw hc hCo hN
    dsimp only [Guess.matches, Guess.new]
    rw [if_pos ⟨hgw, hc⟩]
    obtain ⟨u, hu, huspec⟩ := greenFrom_start gw mask cand hCo
    rw [hu]
    dsimp only
    have haux : ∀ (fuel i0 : Nat), i0 + fuel = 5 → matchFrom gw mask cand fuel i0 u = true := by
      intro fuel
      induction fuel with
      | zero => intro i0 _; rfl
      | succ f ih =>
        intro i0 hfi
        rw [matchFrom]
        by_cases hmC : maskAt mask i0 = Correctness.Correct
        · rw [if_pos hmC]
          exact ih (i0+1) (by omega)
        · rw [if_neg hmC]
          rw [scanFrom_no_elig gw mask (charAt cand i0) i0 5 0 u true
            (by
              rintro j hj0 hj5 ⟨hgj, _⟩
              exact hN i0 (by omega) hmC j (by omega) hgj)]
          dsimp only
          rw [if_neg (by simp), if_neg (by simp)]
          exact ih (i0+1) (by omega)
    rw [haux 5 0 (by omega)]

/-- Witness for the amended C3: `Guess("abcde",[M,W,W,W,W])` rejects
`"apqrs"` (the scan for `a` at position 0 reaches the Misplaced position 0
itself), and `Guess("abcde",[M,M,M,M,M])` accepts `"mnopq"` (no candidate
letter occurs in the guess). -/
theorem matches_misplaced_scan_rule_witness :
    Guess.matches (Guess.new ['a','b','c','d','e']
      [Correctness.Misplaced, Correctness.Wrong, Correctness.Wrong,
        Correctness.Wrong, Correctness.Wrong]) ['a','p','q','r','s'] = some false
    ∧ Guess.matches (Guess.new ['a','b','c','d','e']
      [Correctness.Misplaced, Correctness.Misplaced, Correctness.Misplaced,
        Correctness.Misplaced, Correctness.Misplaced]) ['m','n','o','p','q'] = some true :=
  ⟨matches_misplaced_scan_rule.1 ['a','b','c','d','e'] ['a','p','q','r','s']
      [Correctness.Misplaced, Correctness.Wrong, Correctness.Wrong,
        Correctness.Wrong, Correctness.Wrong] 0
      (by decide) (by decide) (by decide) (by decide) (by decide) (by decide) (by decide),
    matches_misplaced_scan_rule.2 ['a','b','c','d','e'] ['m','n','o','p','q']
      [Correctness.Misplaced, Correctness.Misplaced, Correctness.Misplaced,
        Correctness.Misplaced, Correctness.Misplaced]
      (by decide) (by decide) (by decide) (by decide)⟩
